import Mathlib

/-!
# Verification of the transit-graph analysis core

Shallow embedding of the Rust sources `src/graph.rs` and `src/parser.rs`
of the ds210 transit-analysis project, together with proofs about the
graph builder (`build_from_gtfs`), the closeness-centrality engine
(`compute_closeness_centrality`), the nearest-stop resolver
(`find_closest_stop`) and the per-trip edge generation of
`load_gtfs_data`.

Modelling conventions:
* Rust `HashMap` values are modelled as association lists together with a
  first-match lookup (`alookup`); `HashMap::insert` is `alistSet`
  (overwrite), and the `entry(..).or_insert_with(Vec::new).push(..)`
  pattern of the builder is `alistPush`.
* `f64` quantities that the program only ever adds and compares
  (`distance_sum`, centrality scores) are carried exactly: hop counts as
  `Nat`, scores as `ℚ`.  For these magnitudes `f64` arithmetic is exact,
  so the rational model coincides with the float computation.
* `euclidean_distance` applies `sqrt` to `dlat² + dlon²`.  Square roots
  of rationals are irrational, so the model carries the *squared*
  distance; since `sqrt` is strictly monotone on nonnegatives, the
  strict comparison `dist < best_dist` of the source is exactly the
  comparison of the squared values, and the returned squared distance
  determines the returned float distance.
* The `while let` BFS loop of `compute_closeness_centrality` is modelled
  with an explicit fuel parameter; the fuel `1 + |allTargets edges|` is
  proved sufficient (the queue is always exhausted) in the lemmas below.
-/

/-- `Stop` record of `parser.rs` (coordinates as exact rationals). -/
structure Stop where
  stop_id : String
  name : String
  lat : ℚ
  lon : ℚ
  deriving DecidableEq

/-- `Connection` record of `parser.rs`: one directed edge datum. -/
structure Connection where
  from_stop_id : String
  to_stop_id : String
  deriving DecidableEq

/-- `GTFSData` of `parser.rs`: the stop table and the connection list. -/
structure GTFSData where
  stops : List (String × Stop)
  connections : List Connection

/-- `TransitGraph` of `graph.rs`: node table and adjacency table. -/
structure TransitGraph where
  nodes : List (String × Stop)
  edges : List (String × List String)

/-- First-match association-list lookup: the model of `HashMap::get`. -/
def alookup {β : Type} : List (String × β) → String → Option β
  | [], _ => none
  | (k, v) :: rest, s => if k = s then some v else alookup rest s

/-- Model of `edges.entry(k).or_insert_with(Vec::new).push(v)`:
append `v` to the list stored at `k`, creating the entry if absent. -/
def alistPush (l : List (String × List String)) (k v : String) :
    List (String × List String) :=
  match l with
  | [] => [(k, [v])]
  | (k', vs) :: rest =>
    if k' = k then (k', vs ++ [v]) :: rest else (k', vs) :: alistPush rest k v

/-- Model of `HashMap::insert` (overwrite an existing key). -/
def alistSet {β : Type} (l : List (String × β)) (k : String) (v : β) :
    List (String × β) :=
  match l with
  | [] => [(k, v)]
  | (k', v') :: rest =>
    if k' = k then (k, v) :: rest else (k', v') :: alistSet rest k v

/-- `TransitGraph::build_from_gtfs` (`graph.rs` lines 27-36): copy the
stop table into the node table and push every connection, as is, onto
the adjacency list of its source stop. -/
def build_from_gtfs (data : GTFSData) : TransitGraph :=
  { nodes := data.stops
    edges := data.connections.foldl
      (fun e c => alistPush e c.from_stop_id c.to_stop_id) [] }

/-- Per-trip edge generation of `load_gtfs_data` (`parser.rs` lines
99-108): stable-sort the `(stop_sequence, stop_id)` pairs by sequence
number (Rust's `sort_by_key` is stable; so is `List.insertionSort`),
then emit one `Connection` per adjacent pair of the sorted list. -/
def tripConnections (stops_seq : List (Nat × String)) : List Connection :=
  let sorted := List.insertionSort (fun a b => a.1 ≤ b.1) stops_seq
  (sorted.zip sorted.tail).map
    (fun p => { from_stop_id := p.1.2, to_stop_id := p.2.2 })

/-- All stop identifiers occurring in adjacency-table value lists. -/
def allTargets (edges : List (String × List String)) : List String :=
  edges.foldr (fun p acc => p.2 ++ acc) []

/-- The body of the `for neighbor in neighbors` loop of
`compute_closeness_centrality` (`graph.rs` lines 56-61): an unvisited
neighbor is appended to the visited list and enqueued at distance
`dist + 1`. -/
def enqueueStep (dist : Nat) (st : List (String × Nat) × List String)
    (nb : String) : List (String × Nat) × List String :=
  if nb ∈ st.2 then st else (st.1 ++ [(nb, dist + 1)], st.2 ++ [nb])

/-- The `while let Some((current, dist)) = queue.pop_front()` loop of
`compute_closeness_centrality` (`graph.rs` lines 52-63), with explicit
fuel.  State: queue of `(stop, hop distance)` pairs, visited list,
accumulated distance sum. -/
def bfsLoop (edges : List (String × List String)) :
    Nat → List (String × Nat) → List String → Nat → List String × Nat
  | 0, _, visited, dsum => (visited, dsum)
  | _ + 1, [], visited, dsum => (visited, dsum)
  | fuel + 1, (current, dist) :: rest, visited, dsum =>
    match alookup edges current with
    | none => bfsLoop edges fuel rest visited (dsum + dist)
    | some neighbors =>
      let st := neighbors.foldl (enqueueStep dist) (rest, visited)
      bfsLoop edges fuel st.1 st.2 (dsum + dist)

/-- One full BFS from `start`: queue seeded with `(start, 0)`, visited
seeded with `start`, distance sum `0`.  The fuel is proved sufficient
below (`bfsLoop_spec`). -/
def bfsFrom (edges : List (String × List String)) (start : String) :
    List String × Nat :=
  bfsLoop edges (1 + (allTargets edges).length) [(start, 0)] [start] 0

/-- The score `(visited.len() as f64 - 1.0) / distance_sum` of
`graph.rs` line 67, carried exactly in `ℚ`. -/
def closenessScore (edges : List (String × List String)) (s : String) : ℚ :=
  (((bfsFrom edges s).1.length : ℚ) - 1) / ((bfsFrom edges s).2 : ℚ)

/-- Per-node body of the outer loop of `compute_closeness_centrality`
(`graph.rs` lines 65-69): insert the score when `distance_sum > 0.0`. -/
def centStep (edges : List (String × List String))
    (cent : List (String × ℚ)) (node : String) : List (String × ℚ) :=
  if 0 < (bfsFrom edges node).2 then
    alistSet cent node (closenessScore edges node)
  else cent

/-- `TransitGraph::compute_closeness_centrality` (`graph.rs` lines
40-73): for every node key run a BFS and, when the distance sum is
positive, insert the closeness score. -/
def compute_closeness_centrality (g : TransitGraph) : List (String × ℚ) :=
  (g.nodes.map Prod.fst).foldl (centStep g.edges) []

/-- `TransitGraph::euclidean_distance` (`graph.rs` lines 98-102),
modelled by its square `dlat² + dlon²` (see the module comment). -/
def euclidean_distance_sq (lat1 lon1 lat2 lon2 : ℚ) : ℚ :=
  (lat1 - lat2) ^ 2 + (lon1 - lon2) ^ 2

/-- Loop body of `find_closest_stop` (`graph.rs` lines 81-92): the
candidate `p` replaces the current best only when its (squared) distance
is strictly smaller. -/
def closestStep (lat lon : ℚ) (closest : Option (String × ℚ))
    (p : String × Stop) : Option (String × ℚ) :=
  let dist := euclidean_distance_sq lat lon p.2.lat p.2.lon
  match closest with
  | some (_, best_dist) => if dist < best_dist then some (p.1, dist) else closest
  | none => some (p.1, dist)

/-- `TransitGraph::find_closest_stop` (`graph.rs` lines 78-95): scan the
node table keeping the current best; a candidate replaces the best only
on a strictly smaller distance. -/
def find_closest_stop (g : TransitGraph) (lat lon : ℚ) :
    Option (String × ℚ) :=
  g.nodes.foldl (closestStep lat lon) none

/-- Keys of the node table. -/
def nodeKeys (g : TransitGraph) : List String := g.nodes.map Prod.fst

/-- Keys of a centrality mapping (or of any association list). -/
def mapKeys {β : Type} (l : List (String × β)) : List String :=
  l.map Prod.fst

/-! ## Association-list lemmas -/

theorem alookup_alistSet {β : Type} (m : List (String × β)) (k : String)
    (v : β) (s : String) :
    alookup (alistSet m k v) s = if k = s then some v else alookup m s := by
  induction m with
  | nil => simp [alistSet, alookup]
  | cons p rest ih =>
    obtain ⟨k', v'⟩ := p
    by_cases h : k' = k
    · by_cases h2 : k' = s
      · simp [alistSet, alookup, h, h2, h ▸ h2]
      · have hks : ¬ k = s := fun hs => h2 (h.trans hs)
        simp [alistSet, alookup, h, h2, hks]
    · by_cases h2 : k' = s
      · have hks : ¬ k = s := fun hs => h (h2.trans hs.symm)
        have hsk : ¬ s = k := fun hs => hks hs.symm
        simp [alistSet, alookup, h, h2, hks, hsk]
      · simp [alistSet, alookup, h, h2, ih]

theorem alookup_alistPush (e : List (String × List String)) (k v s : String) :
    alookup (alistPush e k v) s =
      if k = s then some ((alookup e s).getD [] ++ [v]) else alookup e s := by
  induction e with
  | nil => simp [alistPush, alookup]
  | cons p rest ih =>
    obtain ⟨k', vs⟩ := p
    by_cases h : k' = k
    · by_cases h2 : k' = s
      · simp [alistPush, alookup, h, h2, h ▸ h2]
      · have hks : ¬ k = s := fun hs => h2 (h.trans hs)
        simp [alistPush, alookup, h, h2, hks]
    · by_cases h2 : k' = s
      · have hks : ¬ k = s := fun hs => h (h2.trans hs.symm)
        have hsk : ¬ s = k := fun hs => hks hs.symm
        simp [alistPush, alookup, h, h2, hks, hsk]
      · simp [alistPush, alookup, h, h2, ih]

theorem alookup_eq_none {β : Type} (m : List (String × β)) (s : String) :
    alookup m s = none ↔ s ∉ mapKeys m := by
  induction m with
  | nil => simp [alookup, mapKeys]
  | cons p rest ih =>
    obtain ⟨k, v⟩ := p
    by_cases h : k = s
    · simp [alookup, h, mapKeys]
    · have hsk : ¬ s = k := fun hs => h hs.symm
      rw [mapKeys, List.map_cons]
      simp only [alookup, if_neg h, List.mem_cons, not_or]
      rw [mapKeys] at ih
      constructor
      · intro hn
        exact ⟨hsk, ih.mp hn⟩
      · intro hpair
        exact ih.mpr hpair.2

theorem alookup_some_mem_keys {β : Type} {m : List (String × β)} {s : String}
    {v : β} (h : alookup m s = some v) : s ∈ mapKeys m := by
  by_contra hmem
  rw [← alookup_eq_none m s] at hmem
  rw [h] at hmem
  exact Option.noConfusion hmem

theorem mem_snd_alistSet {β : Type} (m : List (String × β)) (k : String)
    (v : β) (q : β) (h : q ∈ (alistSet m k v).map Prod.snd) :
    q = v ∨ q ∈ m.map Prod.snd := by
  induction m with
  | nil =>
    simp only [alistSet, List.map_cons, List.map_nil, List.mem_singleton] at h
    exact Or.inl h
  | cons p rest ih =>
    obtain ⟨k', v'⟩ := p
    by_cases hk : k' = k
    · simp only [alistSet, if_pos hk, List.map_cons, List.mem_cons] at h
      rcases h with h | h
      · exact Or.inl h
      · exact Or.inr (List.mem_cons_of_mem _ h)
    · simp only [alistSet, if_neg hk, List.map_cons, List.mem_cons] at h
      rcases h with h | h
      · exact Or.inr (h ▸ List.mem_cons_self _ _)
      · rcases ih h with h2 | h2
        · exact Or.inl h2
        · exact Or.inr (List.mem_cons_of_mem _ h2)

/-! ## Characterization of the adjacency table built by `build_from_gtfs` -/

/-- The targets of all connections whose source is `s`, in input order. -/
def targetsOf (conns : List Connection) (s : String) : List String :=
  (conns.filter (fun c => decide (c.from_stop_id = s))).map
    (fun c => c.to_stop_id)

theorem targetsOf_cons (c : Connection) (rest : List Connection) (s : String) :
    targetsOf (c :: rest) s =
      if c.from_stop_id = s then c.to_stop_id :: targetsOf rest s
      else targetsOf rest s := by
  by_cases h : c.from_stop_id = s
  · simp [targetsOf, List.filter_cons, h]
  · simp [targetsOf, List.filter_cons, h]

theorem alookup_foldl_push (conns : List Connection)
    (e : List (String × List String)) (s : String) :
    alookup (conns.foldl (fun e c => alistPush e c.from_stop_id c.to_stop_id) e) s =
      if alookup e s = none ∧ targetsOf conns s = [] then none
      else some ((alookup e s).getD [] ++ targetsOf conns s) := by
  induction conns generalizing e with
  | nil =>
    cases h : alookup e s <;> simp [targetsOf, h]
  | cons c rest ih =>
    simp only [List.foldl_cons]
    rw [ih, targetsOf_cons]
    by_cases h : c.from_stop_id = s
    · rw [if_pos h]
      rw [alookup_alistPush, if_pos h]
      simp
    · rw [if_neg h]
      rw [alookup_alistPush, if_neg h]

/-- The adjacency list stored for `s` is exactly the list of targets of
the connections whose source is `s`, in input order (duplicates and
unknown stop identifiers included). -/
theorem alookup_build_edges (data : GTFSData) (s : String) :
    alookup (build_from_gtfs data).edges s =
      if targetsOf data.connections s = [] then none
      else some (targetsOf data.connections s) := by
  have h := alookup_foldl_push data.connections [] s
  simpa [build_from_gtfs, alookup] using h

/-! ## Concrete example data -/

/-- Stop at the origin. -/
def stopA : Stop := ⟨"A", "Stop A", 0, 0⟩

/-- Second stop. -/
def stopB : Stop := ⟨"B", "Stop B", 0, 0⟩

/-- Third stop. -/
def stopC : Stop := ⟨"C", "Stop C", 0, 0⟩

/-- GTFS data whose single connection targets the unknown stop `X`. -/
def badRefData : GTFSData :=
  { stops := [("A", stopA)], connections := [⟨"A", "X"⟩] }

/-- GTFS data in which the directed edge `A→B` occurs twice. -/
def dupData : GTFSData :=
  { stops := [("A", stopA), ("B", stopB)]
    connections := [⟨"A", "B"⟩, ⟨"A", "B"⟩] }

/-- GTFS data with known stops `A`, `B` and the single connection `A→B`. -/
def goodData : GTFSData :=
  { stops := [("A", stopA), ("B", stopB)]
    connections := [⟨"A", "B"⟩] }

/-- The 3-node line graph `A→B→C` of the specification's examples. -/
def lineGraph : TransitGraph :=
  { nodes := [("A", stopA), ("B", stopB), ("C", stopC)]
    edges := [("A", ["B"]), ("B", ["C"])] }

/-! ## Claim C1: referential integrity of the adjacency table -/

/-- C1 counterexample: `build_from_gtfs` inserts the edge `A→X` even
though `X` is not a key of the node table, so the adjacency table of the
built graph references an identifier absent from the node table and the
edge is not discarded. -/
theorem c1_counterexample :
    alookup (build_from_gtfs badRefData).edges "A" = some ["X"] ∧
    "X" ∉ nodeKeys (build_from_gtfs badRefData) := by
  constructor
  · decide
  · decide

/-- C1 amended: `build_from_gtfs` performs no endpoint screening at all
(no edge is ever discarded); consequently referential integrity of the
adjacency table holds exactly when the input connections only target
stop identifiers present in the stop table. -/
theorem c1_referential_integrity (data : GTFSData)
    (h : ∀ c ∈ data.connections, c.to_stop_id ∈ mapKeys data.stops) :
    ∀ s vs, alookup (build_from_gtfs data).edges s = some vs →
      ∀ t ∈ vs, t ∈ nodeKeys (build_from_gtfs data) := by
  intro s vs hvs t ht
  rw [alookup_build_edges] at hvs
  by_cases hts : targetsOf data.connections s = []
  · rw [if_pos hts] at hvs
    exact Option.noConfusion hvs
  · rw [if_neg hts] at hvs
    have hvs' : vs = targetsOf data.connections s := by
      injection hvs with h'
      exact h'.symm
    rw [hvs'] at ht
    rw [targetsOf] at ht
    rcases List.mem_map.mp ht with ⟨c, hc, hct⟩
    have hcmem : c ∈ data.connections := List.mem_of_mem_filter hc
    have := h c hcmem
    rw [hct] at this
    simpa [nodeKeys, build_from_gtfs, mapKeys] using this

/-- C1 witness: the amended theorem applied to `goodData`. -/
theorem c1_witness :
    (∀ c ∈ goodData.connections, c.to_stop_id ∈ mapKeys goodData.stops) ∧
    "B" ∈ nodeKeys (build_from_gtfs goodData) :=
  ⟨by decide,
   c1_referential_integrity goodData (by decide) "A" ["B"] (by decide) "B"
     (by decide)⟩

/-! ## Claim C2: coalescing of duplicate edges -/

/-- C2 counterexample: two identical connections `A→B` produce the
adjacency list `["B", "B"]`, which contains the target `B` twice, so
duplicate directed edges are not coalesced. -/
theorem c2_counterexample :
    alookup (build_from_gtfs dupData).edges "A" = some ["B", "B"] ∧
    ¬ (["B", "B"] : List String).Nodup := by
  constructor
  · decide
  · decide

/-- C2 amended: the adjacency list stored for a source `s` is exactly
the list of targets of all input connections with source `s`, in input
order and with multiplicity — one entry per connection, duplicates
retained, never coalesced. -/
theorem c2_adjacency_multiplicity (data : GTFSData) (s : String) :
    alookup (build_from_gtfs data).edges s =
      if targetsOf data.connections s = [] then none
      else some (targetsOf data.connections s) :=
  alookup_build_edges data s

/-! ## Claim C5: sort invariance of per-trip edge generation -/

theorem insertionSort_eq_of_perm (l₁ l₂ : List (Nat × String))
    (hperm : l₁.Perm l₂) (hnd : (l₁.map Prod.fst).Nodup) :
    List.insertionSort (fun a b => a.1 ≤ b.1) l₁ =
    List.insertionSort (fun a b => a.1 ≤ b.1) l₂ := by
  haveI : IsTotal (Nat × String) (fun a b => a.1 ≤ b.1) :=
    ⟨fun a b => Nat.le_total a.1 b.1⟩
  haveI : IsTrans (Nat × String) (fun a b => a.1 ≤ b.1) :=
    ⟨fun a b c hab hbc => Nat.le_trans hab hbc⟩
  haveI : IsAntisymm (Nat × String) (fun a b => a.1 < b.1) :=
    ⟨fun a b h1 h2 => absurd h2 (Nat.not_lt.mpr (Nat.le_of_lt h1))⟩
  have hp : (List.insertionSort (fun a b => a.1 ≤ b.1) l₁).Perm
      (List.insertionSort (fun a b => a.1 ≤ b.1) l₂) :=
    ((List.perm_insertionSort _ l₁).trans hperm).trans
      (List.perm_insertionSort _ l₂).symm
  have hs₁ := List.sorted_insertionSort (fun a b => a.1 ≤ b.1) l₁
  have hs₂ := List.sorted_insertionSort (fun a b => a.1 ≤ b.1) l₂
  have hnd₁ : ((List.insertionSort (fun a b => a.1 ≤ b.1) l₁).map Prod.fst).Nodup := by
    have := (List.perm_insertionSort (fun a b => a.1 ≤ b.1) l₁).map Prod.fst
    exact this.nodup_iff.mpr hnd
  have hnd₂ : ((List.insertionSort (fun a b => a.1 ≤ b.1) l₂).map Prod.fst).Nodup := by
    have h2 : (l₂.map Prod.fst).Nodup := (hperm.map Prod.fst).nodup_iff.mp hnd
    have := (List.perm_insertionSort (fun a b => a.1 ≤ b.1) l₂).map Prod.fst
    exact this.nodup_iff.mpr h2
  have hlt₁ : List.Sorted (fun (a b : Nat × String) => a.1 < b.1)
      (List.insertionSort (fun a b => a.1 ≤ b.1) l₁) := by
    have hne := (List.pairwise_map.mp hnd₁)
    exact (hs₁.and hne).imp (fun h => Nat.lt_of_le_of_ne h.1 h.2)
  have hlt₂ : List.Sorted (fun (a b : Nat × String) => a.1 < b.1)
      (List.insertionSort (fun a b => a.1 ≤ b.1) l₂) := by
    have hne := (List.pairwise_map.mp hnd₂)
    exact (hs₂.and hne).imp (fun h => Nat.lt_of_le_of_ne h.1 h.2)
  exact List.eq_of_perm_of_sorted hp hlt₁ hlt₂

/-- C5: per-trip edge generation is invariant under reordering of the
supplied `(sequence_number, stop_id)` list when the sequence numbers are
distinct, and a trip with zero or one stops contributes no edges. -/
theorem c5_sort_invariance :
    (∀ l₁ l₂ : List (Nat × String), l₁.Perm l₂ → (l₁.map Prod.fst).Nodup →
      tripConnections l₁ = tripConnections l₂) ∧
    (∀ l : List (Nat × String), l.length ≤ 1 → tripConnections l = []) := by
  constructor
  · intro l₁ l₂ hperm hnd
    simp only [tripConnections]
    rw [insertionSort_eq_of_perm l₁ l₂ hperm hnd]
  · intro l hl
    simp only [tripConnections]
    have hlen : (List.insertionSort (fun a b => a.1 ≤ b.1) l).length = l.length :=
      (List.perm_insertionSort _ l).length_eq
    cases hs : List.insertionSort (fun a b => a.1 ≤ b.1) l with
    | nil => simp
    | cons x t =>
      cases t with
      | nil => simp
      | cons y t2 =>
        rw [hs] at hlen
        simp only [List.length_cons] at hlen
        omega

/-- C5 witness: the out-of-order trip `[(3,C),(1,A),(2,B)]` generates
the same connections as its sorted version, and a one-stop trip
generates none. -/
theorem c5_witness :
    (([(3,"C"),(1,"A"),(2,"B")] : List (Nat × String)).Perm
        [(1,"A"),(2,"B"),(3,"C")] ∧
      tripConnections [(3,"C"),(1,"A"),(2,"B")] =
        tripConnections [(1,"A"),(2,"B"),(3,"C")]) ∧
    tripConnections [(5,"Z")] = [] :=
  ⟨⟨by decide,
    c5_sort_invariance.1 [(3,"C"),(1,"A"),(2,"B")] [(1,"A"),(2,"B"),(3,"C")]
      (by decide) (by decide)⟩,
   c5_sort_invariance.2 [(5,"Z")] (by decide)⟩

/-- Distance (squared) from the query point to a node-table entry. -/
def stopDistSq (lat lon : ℚ) (q : String × Stop) : ℚ :=
  euclidean_distance_sq lat lon q.2.lat q.2.lon

theorem foldl_closestStep_ne_none (lat lon : ℚ) (l : List (String × Stop)) :
    ∀ a : String × ℚ, l.foldl (closestStep lat lon) (some a) ≠ none := by
  induction l with
  | nil => intro a; simp
  | cons p rest ih =>
    intro a
    obtain ⟨i, d⟩ := a
    simp only [List.foldl_cons, closestStep]
    by_cases h : euclidean_distance_sq lat lon p.2.lat p.2.lon < d
    · rw [if_pos h]; exact ih _
    · rw [if_neg h]; exact ih _

theorem foldl_closestStep_spec (lat lon : ℚ) (l : List (String × Stop)) :
    ∀ (a : String × ℚ) (i : String) (d : ℚ),
    l.foldl (closestStep lat lon) (some a) = some (i, d) →
    d ≤ a.2 ∧ (∀ q ∈ l, d ≤ stopDistSq lat lon q) ∧
      ((i = a.1 ∧ d = a.2) ∨
        ∃ l₁ st l₂, l = l₁ ++ (i, st) :: l₂ ∧ d = stopDistSq lat lon (i, st) ∧
          d < a.2 ∧ ∀ q ∈ l₁, d < stopDistSq lat lon q) := by
  induction l with
  | nil =>
    intro a i d h
    obtain ⟨i0, d0⟩ := a
    simp only [List.foldl_nil, Option.some.injEq, Prod.mk.injEq] at h
    obtain ⟨h1, h2⟩ := h
    subst h1; subst h2
    exact ⟨le_refl _, by simp, Or.inl ⟨rfl, rfl⟩⟩
  | cons p rest ih =>
    intro a i d h
    obtain ⟨i0, d0⟩ := a
    simp only [List.foldl_cons, closestStep] at h
    by_cases hc : euclidean_distance_sq lat lon p.2.lat p.2.lon < d0
    · rw [if_pos hc] at h
      obtain ⟨hda, hall, hsplit⟩ := ih _ _ _ h
      have hdsp : d ≤ stopDistSq lat lon p := hda
      refine ⟨le_of_lt (lt_of_le_of_lt hda hc), ?_, ?_⟩
      · intro q hq
        rcases List.mem_cons.mp hq with hq | hq
        · rw [hq]; exact hdsp
        · exact hall q hq
      · rcases hsplit with ⟨hi, hd⟩ | ⟨l₁, st, l₂, hrest, hdst, hlt, hl₁⟩
        · refine Or.inr ⟨[], p.2, rest, ?_, ?_, ?_, by simp⟩
          · simp only [List.nil_append]
            rw [hi]
          · exact hd
          · rw [hd]; exact hc
        · refine Or.inr ⟨p :: l₁, st, l₂, by rw [hrest]; rfl, hdst, lt_trans hlt hc, ?_⟩
          intro q hq
          rcases List.mem_cons.mp hq with hq | hq
          · rw [hq]; exact hlt
          · exact hl₁ q hq
    · rw [if_neg hc] at h
      obtain ⟨hda, hall, hsplit⟩ := ih _ _ _ h
      have hple : d0 ≤ stopDistSq lat lon p := le_of_not_lt hc
      refine ⟨hda, ?_, ?_⟩
      · intro q hq
        rcases List.mem_cons.mp hq with hq | hq
        · rw [hq]; exact le_trans hda hple
        · exact hall q hq
      · rcases hsplit with ⟨hi, hd⟩ | ⟨l₁, st, l₂, hrest, hdst, hlt, hl₁⟩
        · exact Or.inl ⟨hi, hd⟩
        · refine Or.inr ⟨p :: l₁, st, l₂, by rw [hrest]; rfl, hdst, hlt, ?_⟩
          intro q hq
          rcases List.mem_cons.mp hq with hq | hq
          · rw [hq]; exact lt_of_lt_of_le hlt hple
          · exact hl₁ q hq

/-- Stop far from the origin, for the nearest-stop example. -/
def stopFar : Stop := ⟨"B", "Stop B", 10, 10⟩

/-- Two-stop graph of the specification's nearest-stop example. -/
def twoStopGraph : TransitGraph :=
  { nodes := [("A", stopA), ("B", stopFar)], edges := [] }

/-- C6: `find_closest_stop` returns `none` exactly on an empty node
table, and on a non-empty node table always returns one result. -/
theorem c6_none_iff_empty (g : TransitGraph) (lat lon : ℚ) :
    (find_closest_stop g lat lon = none ↔ g.nodes = []) ∧
    (g.nodes ≠ [] → ∃ p, find_closest_stop g lat lon = some p) := by
  have hiff : find_closest_stop g lat lon = none ↔ g.nodes = [] := by
    constructor
    · intro h
      cases hg : g.nodes with
      | nil => rfl
      | cons p rest =>
        exfalso
        rw [find_closest_stop, hg] at h
        simp only [List.foldl_cons, closestStep] at h
        exact foldl_closestStep_ne_none lat lon rest _ h
    · intro h
      rw [find_closest_stop, h]
      rfl
  refine ⟨hiff, ?_⟩
  intro h
  cases hv : find_closest_stop g lat lon with
  | none => exact absurd (hiff.mp hv) h
  | some p => exact ⟨p, rfl⟩

/-- C6 witness: the two-stop graph has a nonempty node table and the
resolver returns a result on it. -/
theorem c6_witness :
    twoStopGraph.nodes ≠ [] ∧
    ∃ p, find_closest_stop twoStopGraph 1 1 = some p :=
  ⟨by decide, (c6_none_iff_empty twoStopGraph 1 1).2 (by decide)⟩

/-- C7: the result of `find_closest_stop` attains the minimum (squared)
distance over all nodes, and it is the first node in iteration order
attaining it (an equal distance never replaces the current best); on the
graph with stops at `(0,0)` and `(10,10)` queried at `(1,1)` it returns
stop `A` with squared distance `2`, i.e. distance `√2 ≈ 1.4142`. -/
theorem c7_first_strict_min :
    (∀ (g : TransitGraph) (lat lon : ℚ) (i : String) (d : ℚ),
      find_closest_stop g lat lon = some (i, d) →
      (∀ q ∈ g.nodes, d ≤ euclidean_distance_sq lat lon q.2.lat q.2.lon) ∧
      ∃ l₁ st l₂, g.nodes = l₁ ++ (i, st) :: l₂ ∧
        d = euclidean_distance_sq lat lon st.lat st.lon ∧
        ∀ q ∈ l₁, d < euclidean_distance_sq lat lon q.2.lat q.2.lon) ∧
    (find_closest_stop twoStopGraph 1 1 = some ("A", 2) ∧
      ((14142 : ℚ)/10000)^2 ≤ 2 ∧ 2 < ((14143 : ℚ)/10000)^2) := by
  constructor
  · intro g lat lon i d h
    cases hg : g.nodes with
    | nil =>
      exfalso
      rw [find_closest_stop, hg] at h
      exact Option.noConfusion h
    | cons p rest =>
      rw [find_closest_stop, hg] at h
      simp only [List.foldl_cons, closestStep] at h
      obtain ⟨hda, hall, hsplit⟩ := foldl_closestStep_spec lat lon rest _ i d h
      constructor
      · intro q hq
        rcases List.mem_cons.mp hq with hq | hq
        · rw [hq]; exact hda
        · exact hall q hq
      · rcases hsplit with ⟨hi, hd⟩ | ⟨l₁, st, l₂, hrest, hdst, hlt, hl₁⟩
        · refine ⟨[], p.2, rest, ?_, hd, by simp⟩
          simp only [List.nil_append]
          rw [hi]
        · refine ⟨p :: l₁, st, l₂, by simp [hrest], hdst, ?_⟩
          intro q hq
          rcases List.mem_cons.mp hq with hq | hq
          · rw [hq]; exact hlt
          · exact hl₁ q hq
  · refine ⟨?_, by norm_num, by norm_num⟩
    simp only [find_closest_stop, twoStopGraph, stopA, stopFar, List.foldl_cons,
      List.foldl_nil, closestStep, euclidean_distance_sq]
    norm_num

/-- C7 witness: the general minimality statement instantiated on the
two-stop example, with the hypothesis discharged by the concrete
conjunct of the theorem itself. -/
theorem c7_witness :
    (∀ q ∈ twoStopGraph.nodes,
      (2 : ℚ) ≤ euclidean_distance_sq 1 1 q.2.lat q.2.lon) ∧
    ∃ l₁ st l₂, twoStopGraph.nodes = l₁ ++ ("A", st) :: l₂ ∧
      (2 : ℚ) = euclidean_distance_sq 1 1 st.lat st.lon ∧
      ∀ q ∈ l₁, (2 : ℚ) < euclidean_distance_sq 1 1 q.2.lat q.2.lon :=
  c7_first_strict_min.1 twoStopGraph 1 1 "A" 2 c7_first_strict_min.2.1

/-! ## Characterization of the centrality mapping -/

theorem alookup_foldl_centStep (edges : List (String × List String))
    (keys : List String) (acc : List (String × ℚ)) (s : String) :
    alookup (keys.foldl (centStep edges) acc) s =
      if s ∈ keys ∧ 0 < (bfsFrom edges s).2 then some (closenessScore edges s)
      else alookup acc s := by
  induction keys generalizing acc with
  | nil => simp
  | cons k rest ih =>
    simp only [List.foldl_cons]
    rw [ih]
    by_cases hs : s ∈ rest ∧ 0 < (bfsFrom edges s).2
    · rw [if_pos hs, if_pos ⟨List.mem_cons_of_mem _ hs.1, hs.2⟩]
    · rw [if_neg hs]
      by_cases hk : k = s
      · subst hk
        by_cases hp : 0 < (bfsFrom edges k).2
        · rw [centStep, if_pos hp, alookup_alistSet, if_pos rfl,
            if_pos ⟨List.mem_cons_self _ _, hp⟩]
        · rw [centStep, if_neg hp, if_neg (fun hc => hp hc.2)]
      · have hcond : ¬ (s ∈ k :: rest ∧ 0 < (bfsFrom edges s).2) := by
          intro hc
          rcases List.mem_cons.mp hc.1 with h1 | h1
          · exact hk h1.symm
          · exact hs ⟨h1, hc.2⟩
        rw [if_neg hcond]
        by_cases hp : 0 < (bfsFrom edges k).2
        · rw [centStep, if_pos hp, alookup_alistSet, if_neg hk]
        · rw [centStep, if_neg hp]

/-- The centrality mapping, characterized pointwise: a stop has a score
exactly when it is a node-table key whose BFS accumulates a positive
distance sum, and the score is `(#visited − 1) / distance_sum`. -/
theorem alookup_cc (g : TransitGraph) (s : String) :
    alookup (compute_closeness_centrality g) s =
      if s ∈ nodeKeys g ∧ 0 < (bfsFrom g.edges s).2 then
        some (closenessScore g.edges s)
      else none := by
  rw [compute_closeness_centrality, alookup_foldl_centStep]
  rfl

theorem mem_snd_foldl_centStep (edges : List (String × List String))
    (keys : List String) (acc : List (String × ℚ)) (q : ℚ)
    (h : q ∈ (keys.foldl (centStep edges) acc).map Prod.snd) :
    (∃ s, 0 < (bfsFrom edges s).2 ∧ q = closenessScore edges s) ∨
      q ∈ acc.map Prod.snd := by
  induction keys generalizing acc with
  | nil => exact Or.inr h
  | cons k rest ih =>
    simp only [List.foldl_cons] at h
    rcases ih _ h with h2 | h2
    · exact Or.inl h2
    · rw [centStep] at h2
      by_cases hp : 0 < (bfsFrom edges k).2
      · rw [if_pos hp] at h2
        rcases mem_snd_alistSet _ _ _ _ h2 with h3 | h3
        · exact Or.inl ⟨k, hp, h3⟩
        · exact Or.inr h3
      · rw [if_neg hp] at h2
        exact Or.inr h2

/-! ## Claims C3, C4, C10 -/

/-- C3: on the line graph `A→B→C` the centrality of `A` is `2/3`, that
of `B` is `1`, and `C` is absent; in general a node-table key whose BFS
has positive distance sum is mapped to
`(#distinct visited − 1) / (sum of hop distances)`. -/
theorem c3_line_graph_and_formula :
    (alookup (compute_closeness_centrality lineGraph) "A" = some (2/3) ∧
     alookup (compute_closeness_centrality lineGraph) "B" = some 1 ∧
     "C" ∉ mapKeys (compute_closeness_centrality lineGraph)) ∧
    (∀ (g : TransitGraph) (s : String), s ∈ nodeKeys g →
      0 < (bfsFrom g.edges s).2 →
      alookup (compute_closeness_centrality g) s =
        some ((((bfsFrom g.edges s).1.length : ℚ) - 1) /
          ((bfsFrom g.edges s).2 : ℚ))) := by
  constructor
  · refine ⟨?_, ?_, ?_⟩
    · rw [alookup_cc, if_pos ⟨by decide, by decide⟩]
      have hb : bfsFrom lineGraph.edges "A" = (["A", "B", "C"], 3) := by decide
      rw [closenessScore, hb]
      norm_num
    · rw [alookup_cc, if_pos ⟨by decide, by decide⟩]
      have hb : bfsFrom lineGraph.edges "B" = (["B", "C"], 1) := by decide
      rw [closenessScore, hb]
      norm_num
    · rw [← alookup_eq_none, alookup_cc, if_neg]
      intro hc
      have hz : (bfsFrom lineGraph.edges "C").2 = 0 := by decide
      rw [hz] at hc
      exact Nat.lt_irrefl 0 hc.2
  · intro g s hmem hpos
    rw [alookup_cc, if_pos ⟨hmem, hpos⟩]
    rfl

/-- C3 witness: the general formula applied to node `A` of the line
graph. -/
theorem c3_witness :
    ("A" ∈ nodeKeys lineGraph ∧ 0 < (bfsFrom lineGraph.edges "A").2) ∧
    alookup (compute_closeness_centrality lineGraph) "A" =
      some ((((bfsFrom lineGraph.edges "A").1.length : ℚ) - 1) /
        ((bfsFrom lineGraph.edges "A").2 : ℚ)) :=
  ⟨⟨by decide, by decide⟩,
   c3_line_graph_and_formula.2 lineGraph "A" (by decide) (by decide)⟩

/-- C4: a node whose BFS accumulates distance sum zero is absent from
the key set of the centrality mapping. -/
theorem c4_zero_sum_absent (g : TransitGraph) (s : String)
    (h : (bfsFrom g.edges s).2 = 0) :
    s ∉ mapKeys (compute_closeness_centrality g) := by
  rw [← alookup_eq_none, alookup_cc, if_neg]
  intro hc
  rw [h] at hc
  exact Nat.lt_irrefl 0 hc.2

/-- C4 witness: node `C` of the line graph has distance sum `0` and is
absent from the centrality keys. -/
theorem c4_witness :
    (bfsFrom lineGraph.edges "C").2 = 0 ∧
    "C" ∉ mapKeys (compute_closeness_centrality lineGraph) :=
  ⟨by decide, c4_zero_sum_absent lineGraph "C" (by decide)⟩

/-- C10: every key of the centrality mapping is a node-table key. -/
theorem c10_keys_subset (g : TransitGraph) (s : String)
    (h : s ∈ mapKeys (compute_closeness_centrality g)) : s ∈ nodeKeys g := by
  by_cases hc : s ∈ nodeKeys g ∧ 0 < (bfsFrom g.edges s).2
  · exact hc.1
  · exfalso
    have hn : alookup (compute_closeness_centrality g) s = none := by
      rw [alookup_cc, if_neg hc]
    exact (alookup_eq_none _ _).mp hn h

/-- C10 witness: key `A` of the line graph's centrality mapping is a
node-table key. -/
theorem c10_witness :
    "A" ∈ mapKeys (compute_closeness_centrality lineGraph) ∧
    "A" ∈ nodeKeys lineGraph :=
  ⟨by decide, c10_keys_subset lineGraph "A" (by decide)⟩

/-! ## BFS layer semantics

The canonical by-levels description of the BFS: `layers edges s n` is
the pair (frontier after `n` hops, all nodes within `n` hops).  It
depends on the adjacency table only through the neighbor *sets*, which
is what makes it suitable for proving order-invariance of the BFS. -/

/-- Neighbor list of `v` (empty when `v` has no adjacency entry). -/
def nbhd (edges : List (String × List String)) (v : String) : List String :=
  (alookup edges v).getD []

/-- Neighbor set of `v`. -/
def nbhdF (edges : List (String × List String)) (v : String) :
    Finset String :=
  (nbhd edges v).toFinset

/-- Nodes one hop away from the frontier `F` that are not yet visited. -/
def frontNext (edges : List (String × List String)) (F V : Finset String) :
    Finset String :=
  (F.biUnion (nbhdF edges)) \ V

/-- `(frontier, visited)` after `n` BFS levels from `s`. -/
def layers (edges : List (String × List String)) (s : String) :
    Nat → Finset String × Finset String
  | 0 => ({s}, {s})
  | n + 1 =>
    (frontNext edges (layers edges s n).1 (layers edges s n).2,
     (layers edges s n).2 ∪
       frontNext edges (layers edges s n).1 (layers edges s n).2)

theorem layers_zero (edges : List (String × List String)) (s : String) :
    layers edges s 0 = ({s}, {s}) := rfl

theorem layers_succ (edges : List (String × List String)) (s : String)
    (n : Nat) :
    layers edges s (n + 1) =
      (frontNext edges (layers edges s n).1 (layers edges s n).2,
       (layers edges s n).2 ∪
         frontNext edges (layers edges s n).1 (layers edges s n).2) := rfl

theorem stab_succ (edges : List (String × List String)) (s : String)
    (n : Nat) (h : (layers edges s n).1 = ∅) :
    (layers edges s (n + 1)).1 = ∅ ∧
      (layers edges s (n + 1)).2 = (layers edges s n).2 := by
  rw [layers_succ]
  constructor
  · simp [frontNext, h]
  · simp [frontNext, h]

theorem stab_forward (edges : List (String × List String)) (s : String)
    (n : Nat) (h : (layers edges s n).1 = ∅) :
    ∀ k : Nat, (layers edges s (n + k)).1 = ∅ ∧
      (layers edges s (n + k)).2 = (layers edges s n).2 := by
  intro k
  induction k with
  | zero => exact ⟨h, rfl⟩
  | succ m ih =>
    have h2 := stab_succ edges s (n + m) ih.1
    exact ⟨h2.1, h2.2.trans ih.2⟩

theorem layers_card_succ (edges : List (String × List String)) (s : String)
    (n : Nat) :
    ((layers edges s (n + 1)).2).card =
      ((layers edges s n).2).card + ((layers edges s (n + 1)).1).card := by
  rw [layers_succ]
  have hd : Disjoint
      (frontNext edges (layers edges s n).1 (layers edges s n).2)
      ((layers edges s n).2) := Finset.sdiff_disjoint
  rw [Finset.union_comm, Finset.card_union_of_disjoint hd]
  exact Nat.add_comm _ _

/-! ### Membership of adjacency values in `allTargets` -/

theorem alookup_some_subset_allTargets
    (edges : List (String × List String)) (v : String)
    (vs : List String) (h : alookup edges v = some vs) :
    ∀ x ∈ vs, x ∈ allTargets edges := by
  induction edges with
  | nil => exact Option.noConfusion h
  | cons p rest ih =>
    obtain ⟨k, ws⟩ := p
    intro x hx
    by_cases hk : k = v
    · rw [alookup, if_pos hk] at h
      injection h with h'
      subst h'
      simp only [allTargets, List.foldr_cons]
      exact List.mem_append_left _ hx
    · rw [alookup, if_neg hk] at h
      simp only [allTargets, List.foldr_cons]
      exact List.mem_append_right _ (ih h x hx)

theorem mem_nbhd_mem_allTargets (edges : List (String × List String))
    (v x : String) (h : x ∈ nbhd edges v) : x ∈ allTargets edges := by
  rw [nbhd] at h
  cases hl : alookup edges v with
  | none => rw [hl] at h; simp at h
  | some vs =>
    rw [hl] at h
    exact alookup_some_subset_allTargets edges v vs hl x h

theorem layers_snd_subset (edges : List (String × List String)) (s : String) :
    ∀ n, (layers edges s n).2 ⊆ insert s (allTargets edges).toFinset := by
  intro n
  induction n with
  | zero =>
    intro x hx
    rw [layers_zero] at hx
    simp only [Finset.mem_singleton] at hx
    simp [hx]
  | succ m ih =>
    intro x hx
    rw [layers_succ] at hx
    rcases Finset.mem_union.mp hx with hx | hx
    · exact ih hx
    · rw [frontNext] at hx
      have hx2 := Finset.mem_sdiff.mp hx
      rcases Finset.mem_biUnion.mp hx2.1 with ⟨v, _, hv⟩
      rw [nbhdF, List.mem_toFinset] at hv
      exact Finset.mem_insert_of_mem
        (List.mem_toFinset.mpr (mem_nbhd_mem_allTargets edges v x hv))

theorem layers_growth (edges : List (String × List String)) (s : String) :
    ∀ n, (layers edges s n).1 ≠ ∅ → n + 1 ≤ ((layers edges s n).2).card := by
  intro n
  induction n with
  | zero =>
    intro _
    rw [layers_zero]
    simp
  | succ m ih =>
    intro h
    have hm : (layers edges s m).1 ≠ ∅ := by
      intro h0
      exact h (stab_succ edges s m h0).1
    have h1 := ih hm
    have hpos : 0 < ((layers edges s (m + 1)).1).card := by
      rcases Finset.nonempty_iff_ne_empty.mpr h with ⟨x, hx⟩
      exact Finset.card_pos.mpr ⟨x, hx⟩
    rw [layers_card_succ]
    omega

/-- Index at which the BFS layers are guaranteed to have stabilized. -/
def stabN (edges : List (String × List String)) : Nat :=
  (allTargets edges).toFinset.card + 1

theorem layers_stab (edges : List (String × List String)) (s : String) :
    (layers edges s (stabN edges)).1 = ∅ := by
  by_contra h
  have h1 := layers_growth edges s (stabN edges) h
  have h2 := Finset.card_le_card (layers_snd_subset edges s (stabN edges))
  have h3 := Finset.card_insert_le s (allTargets edges).toFinset
  rw [stabN] at h1 h2
  omega

/-! ### The neighbor fold of one BFS iteration -/

/-- The sublist of `nbs` retained by the neighbor loop: first
occurrences of elements not yet visited. -/
def newOnes (vis : List String) : List String → List String
  | [] => []
  | nb :: t => if nb ∈ vis then newOnes vis t else nb :: newOnes (vis ++ [nb]) t

theorem foldl_enqueueStep (dist : Nat) (nbs : List String) :
    ∀ (q : List (String × Nat)) (vis : List String),
    nbs.foldl (enqueueStep dist) (q, vis) =
      (q ++ (newOnes vis nbs).map (fun nb => (nb, dist + 1)),
       vis ++ newOnes vis nbs) := by
  induction nbs with
  | nil => intro q vis; simp [newOnes]
  | cons nb t ih =>
    intro q vis
    by_cases h : nb ∈ vis
    · simp only [List.foldl_cons, enqueueStep, if_pos h, newOnes]
      exact ih q vis
    · simp only [List.foldl_cons, enqueueStep, if_neg h, newOnes]
      rw [ih (q ++ [(nb, dist + 1)]) (vis ++ [nb])]
      simp [List.append_assoc]

theorem mem_newOnes (nbs : List String) :
    ∀ (vis : List String) (x : String), x ∈ newOnes vis nbs →
      x ∈ nbs ∧ x ∉ vis := by
  induction nbs with
  | nil => intro vis x hx; simp [newOnes] at hx
  | cons nb t ih =>
    intro vis x hx
    by_cases h : nb ∈ vis
    · rw [newOnes, if_pos h] at hx
      have h2 := ih vis x hx
      exact ⟨List.mem_cons_of_mem _ h2.1, h2.2⟩
    · rw [newOnes, if_neg h] at hx
      rcases List.mem_cons.mp hx with hx | hx
      · exact ⟨hx ▸ List.mem_cons_self _ _, hx ▸ h⟩
      · have h2 := ih (vis ++ [nb]) x hx
        have hnv : x ∉ vis := fun hc => h2.2 (List.mem_append_left _ hc)
        exact ⟨List.mem_cons_of_mem _ h2.1, hnv⟩

theorem newOnes_nodup (nbs : List String) :
    ∀ vis : List String, (newOnes vis nbs).Nodup := by
  induction nbs with
  | nil => intro vis; simp [newOnes]
  | cons nb t ih =>
    intro vis
    by_cases h : nb ∈ vis
    · rw [newOnes, if_pos h]; exact ih vis
    · rw [newOnes, if_neg h]
      refine List.Nodup.cons ?_ (ih (vis ++ [nb]))
      intro hc
      have h2 := mem_newOnes t (vis ++ [nb]) nb hc
      exact h2.2 (List.mem_append_right _ (List.mem_singleton.mpr rfl))

theorem toFinset_newOnes (nbs : List String) :
    ∀ vis : List String,
      (newOnes vis nbs).toFinset = nbs.toFinset \ vis.toFinset := by
  induction nbs with
  | nil => intro vis; simp [newOnes]
  | cons nb t ih =>
    intro vis
    by_cases h : nb ∈ vis
    · rw [newOnes, if_pos h, ih vis]
      ext x
      simp only [Finset.mem_sdiff, List.mem_toFinset, List.mem_cons]
      constructor
      · intro hx; exact ⟨Or.inr hx.1, hx.2⟩
      · intro hx
        rcases hx.1 with hx1 | hx1
        · exact absurd (hx1 ▸ h) hx.2
        · exact ⟨hx1, hx.2⟩
    · rw [newOnes, if_neg h]
      ext x
      simp only [List.toFinset_cons, Finset.mem_insert, ih (vis ++ [nb]),
        Finset.mem_sdiff, List.mem_toFinset, List.mem_append,
        List.mem_singleton, List.mem_cons, List.not_mem_nil, or_false]
      constructor
      · intro hx
        rcases hx with hx | hx
        · exact ⟨Or.inl hx, hx ▸ h⟩
        · exact ⟨Or.inr hx.1, fun hc => hx.2 (Or.inl hc)⟩
      · intro hx
        rcases hx.1 with hx1 | hx1
        · exact Or.inl hx1
        · by_cases hxn : x = nb
          · exact Or.inl hxn
          · exact Or.inr ⟨hx1, fun hc => (hc.elim (fun h1 => hx.2 h1) hxn)⟩


/-! ### Fuel accounting -/

theorem length_filter_ne_lt (y : String) (l : List String) (hy : y ∈ l) :
    (l.filter (fun x => decide (x ≠ y))).length < l.length := by
  induction l with
  | nil => simp at hy
  | cons a t ih =>
    rw [List.filter_cons]
    by_cases ha : a = y
    · have hb : (decide (a ≠ y)) = false := by simp [ha]
      rw [hb]
      simp only [Bool.false_eq_true, if_false, List.length_cons]
      exact Nat.lt_succ_of_le (List.length_filter_le _ t)
    · have hb : (decide (a ≠ y)) = true := by simp [ha]
      rw [hb]
      simp only [if_true, List.length_cons]
      have hyt : y ∈ t := by
        rcases List.mem_cons.mp hy with h1 | h1
        · exact absurd h1.symm ha
        · exact h1
      exact Nat.succ_lt_succ (ih hyt)

theorem length_filter_remove (univ : List String) (new : List String) :
    ∀ vis : List String, new.Nodup →
    (∀ x ∈ new, x ∈ univ ∧ x ∉ vis) →
    (univ.filter (fun x => decide (x ∉ vis ++ new))).length + new.length ≤
      (univ.filter (fun x => decide (x ∉ vis))).length := by
  induction new with
  | nil =>
    intro vis _ _
    simp
  | cons y t ih =>
    intro vis hnd hmem
    have hy := hmem y (List.mem_cons_self _ _)
    have hstep1 : (univ.filter (fun x => decide (x ∉ vis ++ y :: t))).length =
        (univ.filter (fun x => decide (x ∉ (vis ++ [y]) ++ t))).length := by
      apply congrArg
      apply List.filter_congr
      intro x _
      apply decide_eq_decide.mpr
      simp [List.mem_append, List.mem_cons, or_assoc]
    have hstep2 : (univ.filter (fun x => decide (x ∉ vis ++ [y]))).length + 1 ≤
        (univ.filter (fun x => decide (x ∉ vis))).length := by
      have hsub : (univ.filter (fun x => decide (x ∉ vis ++ [y]))).length =
          ((univ.filter (fun x => decide (x ∉ vis))).filter
            (fun x => decide (x ≠ y))).length := by
        rw [List.filter_filter]
        apply congrArg
        apply List.filter_congr
        intro x _
        by_cases hv : x ∈ vis
        · simp [hv]
        · by_cases hxy : x = y
          · simp [hv, hxy]
          · simp [hv, hxy]
      have hmemf : y ∈ univ.filter (fun x => decide (x ∉ vis)) := by
        rw [List.mem_filter]
        exact ⟨hy.1, by simpa using hy.2⟩
      rw [hsub]
      exact length_filter_ne_lt y _ hmemf
    have ihapp := ih (vis ++ [y]) (List.Nodup.of_cons hnd) ?hmemcond
    case hmemcond =>
      intro x hx
      have h2 := hmem x (List.mem_cons_of_mem _ hx)
      refine ⟨h2.1, ?_⟩
      intro hc
      rcases List.mem_append.mp hc with hc1 | hc1
      · exact h2.2 hc1
      · have : x = y := List.mem_singleton.mp hc1
        exact (List.nodup_cons.mp hnd).1 (this ▸ hx)
    rw [List.length_cons]
    omega

/-! ### One step of the BFS loop -/

theorem bfsLoop_cons (edges : List (String × List String)) (f : Nat)
    (c : String) (d : Nat) (q : List (String × Nat)) (visited : List String)
    (dsum : Nat) :
    bfsLoop edges (f + 1) ((c, d) :: q) visited dsum =
      bfsLoop edges f
        (q ++ (newOnes visited (nbhd edges c)).map (fun nb => (nb, d + 1)))
        (visited ++ newOnes visited (nbhd edges c)) (dsum + d) := by
  cases hl : alookup edges c with
  | none =>
    simp only [bfsLoop, hl, nbhd, Option.getD_none, newOnes, List.map_nil,
      List.append_nil]
  | some nbs =>
    simp only [bfsLoop, hl, nbhd, Option.getD_some]
    rw [foldl_enqueueStep]

/-- Distance mass contributed by the full BFS levels `a ≤ k < b`. -/
def tailSum (edges : List (String × List String)) (s : String)
    (a b : Nat) : Nat :=
  ∑ k in Finset.Ico a b, k * ((layers edges s k).1).card

theorem layers_snd_succ_of_empty (edges : List (String × List String))
    (s : String) (n : Nat) (h : (layers edges s (n + 1)).1 = ∅) :
    (layers edges s (n + 1)).2 = (layers edges s n).2 := by
  have h0 : (layers edges s (n + 1)).2 =
      (layers edges s n).2 ∪ (layers edges s (n + 1)).1 := rfl
  rw [h0, h, Finset.union_empty]

theorem master_terminal (edges : List (String × List String)) (s : String)
    (N₀ n : Nat) (hstab : (layers edges s N₀).1 = ∅)
    (hnext : (layers edges s (n + 1)).1 = ∅) :
    (layers edges s n).2 = (layers edges s N₀).2 ∧
      tailSum edges s (n + 1) N₀ = 0 := by
  constructor
  · have hVn1 : (layers edges s (n + 1)).2 = (layers edges s n).2 :=
      layers_snd_succ_of_empty edges s n hnext
    rcases Nat.le_total (n + 1) N₀ with hle | hle
    · obtain ⟨k, hk⟩ := Nat.exists_eq_add_of_le hle
      have h2 := stab_forward edges s (n + 1) hnext k
      rw [hk, h2.2, hVn1]
    · obtain ⟨k, hk⟩ := Nat.exists_eq_add_of_le hle
      have h2 := stab_forward edges s N₀ hstab k
      rw [← hVn1, hk, h2.2]
  · apply Finset.sum_eq_zero
    intro k hk
    have hk2 := Finset.mem_Ico.mp hk
    obtain ⟨m, hm⟩ := Nat.exists_eq_add_of_le hk2.1
    rw [hm, (stab_forward edges s (n + 1) hnext m).1, Finset.card_empty,
      Nat.mul_zero]

/-! ### The BFS master invariant -/

theorem bfsLoop_master_step (edges : List (String × List String))
    (s : String) (N₀ : Nat) (f : Nat)
    (ih : ∀ (n : Nat) (A B visited : List String) (dsum : Nat),
      A.length + B.length +
          ((allTargets edges).filter (fun x => decide (x ∉ visited))).length ≤ f →
      A.Nodup → B.Nodup → visited.Nodup →
      A.toFinset ⊆ (layers edges s n).1 →
      B.toFinset =
        frontNext edges ((layers edges s n).1 \ A.toFinset)
          (layers edges s n).2 →
      visited.toFinset = (layers edges s n).2 ∪ B.toFinset →
      ∃ visF : List String,
        bfsLoop edges f
            (A.map (fun a => (a, n)) ++ B.map (fun b => (b, n + 1)))
            visited dsum
          = (visF, dsum + n * A.length + tailSum edges s (n + 1) N₀) ∧
        visF.toFinset = (layers edges s N₀).2 ∧ visF.Nodup)
    (n : Nat) (c : String) (A' B visited : List String) (dsum : Nat)
    (hfuel : (c :: A').length + B.length +
      ((allTargets edges).filter (fun x => decide (x ∉ visited))).length ≤ f + 1)
    (hA : (c :: A').Nodup) (hB : B.Nodup) (hvis : visited.Nodup)
    (hAsub : (c :: A').toFinset ⊆ (layers edges s n).1)
    (hBeq : B.toFinset =
      frontNext edges ((layers edges s n).1 \ (c :: A').toFinset)
        (layers edges s n).2)
    (hviseq : visited.toFinset = (layers edges s n).2 ∪ B.toFinset) :
    ∃ visF : List String,
      bfsLoop edges (f + 1)
          ((c :: A').map (fun a => (a, n)) ++ B.map (fun b => (b, n + 1)))
          visited dsum
        = (visF, dsum + n * (c :: A').length + tailSum edges s (n + 1) N₀) ∧
      visF.toFinset = (layers edges s N₀).2 ∧ visF.Nodup := by
  have hcF : c ∈ (layers edges s n).1 := hAsub (by simp)
  have hcA' : c ∉ A' := (List.nodup_cons.mp hA).1
  have hq : (c :: A').map (fun a => (a, n)) ++ B.map (fun b => (b, n + 1))
      = (c, n) :: (A'.map (fun a => (a, n)) ++ B.map (fun b => (b, n + 1))) := by
    simp
  rw [hq, bfsLoop_cons]
  have hnewmem : ∀ x ∈ newOnes visited (nbhd edges c),
      x ∈ allTargets edges ∧ x ∉ visited := by
    intro x hx
    have h2 := mem_newOnes (nbhd edges c) visited x hx
    exact ⟨mem_nbhd_mem_allTargets edges c x h2.1, h2.2⟩
  have hnewnd : (newOnes visited (nbhd edges c)).Nodup :=
    newOnes_nodup (nbhd edges c) visited
  have hBsubvis : ∀ x ∈ B, x ∈ visited := by
    intro x hx
    have h2 : x ∈ visited.toFinset := by
      rw [hviseq]
      exact Finset.mem_union_right _ (List.mem_toFinset.mpr hx)
    exact List.mem_toFinset.mp h2
  have hqshape :
      (A'.map (fun a => (a, n)) ++ B.map (fun b => (b, n + 1))) ++
        (newOnes visited (nbhd edges c)).map (fun nb => (nb, n + 1))
      = A'.map (fun a => (a, n)) ++
        (B ++ newOnes visited (nbhd edges c)).map (fun b => (b, n + 1)) := by
    simp [List.append_assoc]
  rw [hqshape]
  have hnewfin : (newOnes visited (nbhd edges c)).toFinset =
      nbhdF edges c \ ((layers edges s n).2 ∪ B.toFinset) := by
    rw [toFinset_newOnes, ← hviseq]
    rfl
  have hsplit : (layers edges s n).1 \ A'.toFinset =
      insert c ((layers edges s n).1 \ insert c A'.toFinset) := by
    ext x
    simp only [Finset.mem_sdiff, Finset.mem_insert, List.mem_toFinset]
    constructor
    · intro hx
      by_cases hxc : x = c
      · exact Or.inl hxc
      · exact Or.inr ⟨hx.1, fun hc => hc.elim hxc hx.2⟩
    · intro hx
      rcases hx with hx | hx
      · exact ⟨hx ▸ hcF, hx ▸ hcA'⟩
      · exact ⟨hx.1, fun hc => hx.2 (Or.inr hc)⟩
  have hfront : frontNext edges ((layers edges s n).1 \ A'.toFinset)
      (layers edges s n).2 =
      (nbhdF edges c \ (layers edges s n).2) ∪
        frontNext edges ((layers edges s n).1 \ insert c A'.toFinset)
          (layers edges s n).2 := by
    rw [hsplit, frontNext, frontNext, Finset.biUnion_insert,
      Finset.union_sdiff_distrib]
  obtain ⟨visF, heq, hfin, hnodup⟩ :=
    ih n A' (B ++ newOnes visited (nbhd edges c))
      (visited ++ newOnes visited (nbhd edges c)) (dsum + n)
      (by
        have hrem := length_filter_remove (allTargets edges)
          (newOnes visited (nbhd edges c)) visited hnewnd hnewmem
        rw [List.length_cons] at hfuel
        rw [List.length_append]
        omega)
      ((List.nodup_cons.mp hA).2)
      (List.Nodup.append hB hnewnd
        (fun x hxB hxN => (hnewmem x hxN).2 (hBsubvis x hxB)))
      (List.Nodup.append hvis hnewnd
        (fun x hxV hxN => (hnewmem x hxN).2 hxV))
      (fun x hx => hAsub (by
        rw [List.toFinset_cons]
        exact Finset.mem_insert_of_mem hx))
      (by
        rw [List.toFinset_append, hnewfin, hfront, ← List.toFinset_cons]
        rw [← hBeq]
        ext x
        simp only [Finset.mem_union, Finset.mem_sdiff, Finset.mem_union]
        constructor
        · intro hx
          rcases hx with hx | hx
          · exact Or.inr hx
          · exact Or.inl ⟨hx.1, fun hc => hx.2 (Or.inl hc)⟩
        · intro hx
          rcases hx with hx | hx
          · by_cases hxB : x ∈ B.toFinset
            · exact Or.inl hxB
            · exact Or.inr ⟨hx.1, fun hc => hc.elim hx.2 hxB⟩
          · exact Or.inl hx)
      (by
        rw [List.toFinset_append, hviseq, List.toFinset_append, hnewfin]
        ext x
        simp only [Finset.mem_union, Finset.mem_sdiff, Finset.mem_union]
        constructor
        · intro hx
          rcases hx with (hx | hx) | hx
          · exact Or.inl hx
          · exact Or.inr (Or.inl hx)
          · exact Or.inr (Or.inr hx)
        · intro hx
          rcases hx with hx | (hx | hx)
          · exact Or.inl (Or.inl hx)
          · exact Or.inl (Or.inr hx)
          · exact Or.inr hx)
  refine ⟨visF, ?_, hfin, hnodup⟩
  rw [heq]
  have harith : dsum + n + n * A'.length = dsum + n * (c :: A').length := by
    rw [List.length_cons]
    ring
  rw [harith]

theorem bfsLoop_master (edges : List (String × List String)) (s : String)
    (N₀ : Nat) (hstab : (layers edges s N₀).1 = ∅) :
    ∀ (fuel n : Nat) (A B visited : List String) (dsum : Nat),
    A.length + B.length +
        ((allTargets edges).filter (fun x => decide (x ∉ visited))).length ≤ fuel →
    A.Nodup → B.Nodup → visited.Nodup →
    A.toFinset ⊆ (layers edges s n).1 →
    B.toFinset =
      frontNext edges ((layers edges s n).1 \ A.toFinset)
        (layers edges s n).2 →
    visited.toFinset = (layers edges s n).2 ∪ B.toFinset →
    ∃ visF : List String,
      bfsLoop edges fuel
          (A.map (fun a => (a, n)) ++ B.map (fun b => (b, n + 1)))
          visited dsum
        = (visF, dsum + n * A.length + tailSum edges s (n + 1) N₀) ∧
      visF.toFinset = (layers edges s N₀).2 ∧ visF.Nodup := by
  intro fuel
  induction fuel with
  | zero =>
    intro n A B visited dsum hfuel hA hB hvis hAsub hBeq hviseq
    have hA0 : A = [] := by
      cases A with
      | nil => rfl
      | cons a t => rw [List.length_cons] at hfuel; omega
    have hB0 : B = [] := by
      cases B with
      | nil => rfl
      | cons b t => rw [List.length_cons] at hfuel; omega
    subst hA0
    subst hB0
    have hnext : (layers edges s (n + 1)).1 = ∅ := by
      have h0 : (layers edges s (n + 1)).1 =
          frontNext edges (layers edges s n).1 (layers edges s n).2 := rfl
      rw [h0, ← Finset.sdiff_empty (s := (layers edges s n).1)]
      have : (([] : List String)).toFinset = (∅ : Finset String) := rfl
      rw [← this, ← hBeq]
    have hterm := master_terminal edges s N₀ n hstab hnext
    refine ⟨visited, ?_, ?_, hvis⟩
    · simp only [List.map_nil, List.nil_append, bfsLoop, List.length_nil,
        Nat.mul_zero, Nat.add_zero, hterm.2]
    · rw [hviseq, hterm.1]
      simp
  | succ f ihf =>
    intro n A B visited dsum hfuel hA hB hvis hAsub hBeq hviseq
    cases A with
    | cons c A' =>
      exact bfsLoop_master_step edges s N₀ f ihf n c A' B visited dsum
        hfuel hA hB hvis hAsub hBeq hviseq
    | nil =>
      cases B with
      | nil =>
        have hnext : (layers edges s (n + 1)).1 = ∅ := by
          have h0 : (layers edges s (n + 1)).1 =
              frontNext edges (layers edges s n).1 (layers edges s n).2 := rfl
          rw [h0, ← Finset.sdiff_empty (s := (layers edges s n).1)]
          have : (([] : List String)).toFinset = (∅ : Finset String) := rfl
          rw [← this, ← hBeq]
        have hterm := master_terminal edges s N₀ n hstab hnext
        refine ⟨visited, ?_, ?_, hvis⟩
        · simp only [List.map_nil, List.nil_append, bfsLoop, List.length_nil,
            Nat.mul_zero, Nat.add_zero, hterm.2]
        · rw [hviseq, hterm.1]
          simp
      | cons b B' =>
        have hBF : (b :: B').toFinset = (layers edges s (n + 1)).1 := by
          rw [hBeq]
          have h1 : (([] : List String)).toFinset = (∅ : Finset String) := rfl
          rw [h1, Finset.sdiff_empty]
          rfl
        have hstep := bfsLoop_master_step edges s N₀ f ihf (n + 1) b B' []
          visited dsum
          (by simpa using hfuel)
          hB List.nodup_nil hvis
          (le_of_eq hBF)
          (by
            rw [hBF, Finset.sdiff_self]
            have h2 : frontNext edges ∅ (layers edges s (n + 1)).2 = ∅ := by
              rw [frontNext, Finset.biUnion_empty, Finset.empty_sdiff]
            rw [h2]
            rfl)
          (by
            have h2 : (layers edges s (n + 1)).2 =
                (layers edges s n).2 ∪ (layers edges s (n + 1)).1 := rfl
            rw [h2, ← hBF, hviseq]
            simp)
        obtain ⟨visF, heq, hfin, hnodup⟩ := hstep
        refine ⟨visF, ?_, hfin, hnodup⟩
        have hq2 : (b :: B').map (fun a => (a, n + 1)) ++
            ([] : List String).map (fun b => (b, n + 1 + 1))
            = ([] : List String).map (fun a => (a, n)) ++
              (b :: B').map (fun b => (b, n + 1)) := by
          simp
        rw [← hq2, heq]
        have hlen : (b :: B').length = ((layers edges s (n + 1)).1).card := by
          rw [← hBF, List.toFinset_card_of_nodup hB]
        have hne : (layers edges s (n + 1)).1 ≠ ∅ := by
          rw [← hBF]
          intro hc
          have : b ∈ (b :: B').toFinset := by simp
          rw [hc] at this
          exact absurd this (Finset.not_mem_empty b)
        have hlt : n + 1 < N₀ := by
          by_contra hge
          push_neg at hge
          obtain ⟨k, hk⟩ := Nat.exists_eq_add_of_le hge
          exact hne (hk ▸ (stab_forward edges s N₀ hstab k).1)
        have hsum : tailSum edges s (n + 1) N₀ =
            (n + 1) * (b :: B').length + tailSum edges s (n + 2) N₀ := by
          rw [tailSum, tailSum, Finset.sum_eq_sum_Ico_succ_bot hlt, hlen]
        rw [hsum]
        simp only [List.length_nil, Nat.mul_zero, Nat.add_zero]
        ring_nf

theorem bfsFrom_spec (edges : List (String × List String)) (s : String)
    (N₀ : Nat) (hstab : (layers edges s N₀).1 = ∅) :
    ((bfsFrom edges s).1).toFinset = (layers edges s N₀).2 ∧
    (bfsFrom edges s).1.Nodup ∧
    (bfsFrom edges s).2 = tailSum edges s 1 N₀ := by
  obtain ⟨visF, heq, hfin, hnodup⟩ := bfsLoop_master edges s N₀ hstab
    (1 + (allTargets edges).length) 0 [s] [] [s] 0
    (by
      have hf := List.length_filter_le (fun x => decide (x ∉ [s]))
        (allTargets edges)
      simp only [List.length_cons, List.length_nil]
      omega)
    (List.nodup_singleton s) List.nodup_nil (List.nodup_singleton s)
    (by
      intro x hx
      simp only [List.toFinset_cons, List.toFinset_nil,
        Finset.mem_insert, Finset.not_mem_empty, or_false] at hx
      have h0 : (layers edges s 0).1 = {s} := rfl
      rw [h0, hx]
      exact Finset.mem_singleton_self s)
    (by
      have h1 : (layers edges s 0).1 \ ([s] : List String).toFinset = ∅ := by
        have h0 : (layers edges s 0).1 = {s} := rfl
        rw [h0]
        simp
      rw [h1, frontNext, Finset.biUnion_empty, Finset.empty_sdiff]
      rfl)
    (by
      have h0 : (layers edges s 0).2 = {s} := rfl
      rw [h0]
      simp)
  have hql : ([s] : List String).map (fun a => (a, 0)) ++
      ([] : List String).map (fun b => (b, 0 + 1)) = [(s, 0)] := by simp
  rw [hql] at heq
  have hbfs : bfsFrom edges s =
      (visF, 0 + 0 * ([s] : List String).length + tailSum edges s (0 + 1) N₀) := by
    rw [bfsFrom]
    exact heq
  rw [hbfs]
  simp only [List.length_cons, List.length_nil, Nat.zero_mul, Nat.add_zero,
    Nat.zero_add]
  exact ⟨hfin, hnodup, trivial⟩

theorem card_layers (edges : List (String × List String)) (s : String) :
    ∀ n, ((layers edges s n).2).card =
      ∑ k in Finset.range (n + 1), ((layers edges s k).1).card := by
  intro n
  induction n with
  | zero =>
    rw [Finset.sum_range_one]
    rfl
  | succ m ih =>
    rw [Finset.sum_range_succ, ← ih, layers_card_succ]

theorem layers_fst_zero_card (edges : List (String × List String))
    (s : String) : ((layers edges s 0).1).card = 1 := by
  have h0 : (layers edges s 0).1 = {s} := rfl
  rw [h0, Finset.card_singleton]

theorem stabN_pos (edges : List (String × List String)) : 1 ≤ stabN edges := by
  rw [stabN]
  omega

theorem bfs_count_le_sum_add_one (edges : List (String × List String))
    (s : String) :
    (bfsFrom edges s).1.length ≤ (bfsFrom edges s).2 + 1 := by
  obtain ⟨hfin, hnodup, hsum⟩ :=
    bfsFrom_spec edges s (stabN edges) (layers_stab edges s)
  have hcount : (bfsFrom edges s).1.length =
      ((layers edges s (stabN edges)).2).card := by
    rw [← hfin, List.toFinset_card_of_nodup hnodup]
  rw [hcount, hsum, card_layers]
  rw [Finset.sum_range_succ, layers_stab, Finset.card_empty, Nat.add_zero]
  have hN1 : 0 < stabN edges := stabN_pos edges
  rw [Finset.range_eq_Ico, Finset.sum_eq_sum_Ico_succ_bot hN1,
    layers_fst_zero_card, tailSum]
  simp only [Nat.zero_add]
  have hle : ∑ k in Finset.Ico 1 (stabN edges), ((layers edges s k).1).card ≤
      ∑ k in Finset.Ico 1 (stabN edges), k * ((layers edges s k).1).card := by
    apply Finset.sum_le_sum
    intro k hk
    have h1 : 1 ≤ k := (Finset.mem_Ico.mp hk).1
    calc ((layers edges s k).1).card
        = 1 * ((layers edges s k).1).card := (Nat.one_mul _).symm
      _ ≤ k * ((layers edges s k).1).card :=
          Nat.mul_le_mul_right _ h1
  omega

theorem bfs_pos_sum_two_le_count (edges : List (String × List String))
    (s : String) (h : 0 < (bfsFrom edges s).2) :
    2 ≤ (bfsFrom edges s).1.length := by
  obtain ⟨hfin, hnodup, hsum⟩ :=
    bfsFrom_spec edges s (stabN edges) (layers_stab edges s)
  have hcount : (bfsFrom edges s).1.length =
      ((layers edges s (stabN edges)).2).card := by
    rw [← hfin, List.toFinset_card_of_nodup hnodup]
  by_contra hlt
  push_neg at hlt
  have hv : ((layers edges s (stabN edges)).2).card ≤ 1 := by omega
  rw [card_layers, Finset.range_eq_Ico,
    Finset.sum_eq_sum_Ico_succ_bot (by omega : 0 < stabN edges + 1),
    layers_fst_zero_card] at hv
  simp only [Nat.zero_add] at hv
  have hz : ∑ k in Finset.Ico 1 (stabN edges + 1),
      ((layers edges s k).1).card = 0 := by omega
  have hsz : (bfsFrom edges s).2 = 0 := by
    rw [hsum, tailSum]
    apply Finset.sum_eq_zero
    intro k hk
    have hk2 := Finset.mem_Ico.mp hk
    have hzk := (Finset.sum_eq_zero_iff.mp hz) k
      (Finset.mem_Ico.mpr ⟨hk2.1, by omega⟩)
    rw [hzk, Nat.mul_zero]
  omega

/-! ## Claim C9: centrality scores lie in (0, 1] -/

theorem alookup_some_mem_snd {β : Type} (m : List (String × β)) (s : String)
    (v : β) (h : alookup m s = some v) : v ∈ m.map Prod.snd := by
  induction m with
  | nil => exact Option.noConfusion h
  | cons p rest ih =>
    obtain ⟨k, w⟩ := p
    by_cases hk : k = s
    · rw [alookup, if_pos hk] at h
      injection h with h'
      simp [h']
    · rw [alookup, if_neg hk] at h
      simp [ih h]

/-- Concrete value of the line graph's centrality at `A`. -/
theorem cc_lineGraph_A :
    alookup (compute_closeness_centrality lineGraph) "A" = some (2/3) := by
  rw [alookup_cc, if_pos ⟨by decide, by decide⟩]
  have hb : bfsFrom lineGraph.edges "A" = (["A", "B", "C"], 3) := by decide
  rw [closenessScore, hb]
  norm_num

/-- C9: every value of the centrality mapping is strictly positive and
at most `1`. -/
theorem c9_scores_in_unit (g : TransitGraph) (q : ℚ)
    (h : q ∈ (compute_closeness_centrality g).map Prod.snd) :
    0 < q ∧ q ≤ 1 := by
  rw [compute_closeness_centrality] at h
  rcases mem_snd_foldl_centStep g.edges (g.nodes.map Prod.fst) [] q h with
    ⟨s, hpos, hq⟩ | h2
  · rw [hq, closenessScore]
    have h2c : 2 ≤ (bfsFrom g.edges s).1.length :=
      bfs_pos_sum_two_le_count g.edges s hpos
    have hle : (bfsFrom g.edges s).1.length ≤ (bfsFrom g.edges s).2 + 1 :=
      bfs_count_le_sum_add_one g.edges s
    have hdpos : (0 : ℚ) < ((bfsFrom g.edges s).2 : ℚ) := by exact_mod_cast hpos
    constructor
    · apply div_pos
      · have hc : (2 : ℚ) ≤ ((bfsFrom g.edges s).1.length : ℚ) := by
          exact_mod_cast h2c
        linarith
      · exact hdpos
    · rw [div_le_one hdpos]
      have hc : ((bfsFrom g.edges s).1.length : ℚ) ≤
          ((bfsFrom g.edges s).2 : ℚ) + 1 := by exact_mod_cast hle
      linarith
  · simp at h2

/-- C9 witness: the score `2/3` of node `A` of the line graph lies in
`(0, 1]`. -/
theorem c9_witness :
    (2/3 : ℚ) ∈ (compute_closeness_centrality lineGraph).map Prod.snd ∧
    (0 < (2/3 : ℚ) ∧ (2/3 : ℚ) ≤ 1) :=
  have hm := alookup_some_mem_snd _ "A" _ cc_lineGraph_A
  ⟨hm, c9_scores_in_unit lineGraph (2/3) hm⟩

/-! ## Claim C8: determinism and adjacency-order invariance -/

theorem alookup_getD_perm (e₁ e₂ : List (String × List String))
    (h : List.Forall₂ (fun p q => p.1 = q.1 ∧ p.2.Perm q.2) e₁ e₂)
    (v : String) :
    ((alookup e₁ v).getD []).Perm ((alookup e₂ v).getD []) := by
  induction h with
  | nil => exact List.Perm.refl _
  | @cons a b l₁ l₂ hab hrest ih =>
    obtain ⟨a1, a2⟩ := a
    obtain ⟨b1, b2⟩ := b
    obtain ⟨hk, hp⟩ := hab
    have hk1 : a1 = b1 := hk
    by_cases hv : a1 = v
    · rw [alookup, alookup, if_pos hv, if_pos (hk1 ▸ hv)]
      simpa using hp
    · rw [alookup, alookup, if_neg hv, if_neg (hk1 ▸ hv)]
      exact ih

theorem nbhdF_eq_of_perm (e₁ e₂ : List (String × List String))
    (h : List.Forall₂ (fun p q => p.1 = q.1 ∧ p.2.Perm q.2) e₁ e₂) :
    ∀ v, nbhdF e₁ v = nbhdF e₂ v := by
  intro v
  rw [nbhdF, nbhdF, nbhd, nbhd]
  exact List.toFinset_eq_of_perm _ _ (alookup_getD_perm e₁ e₂ h v)

theorem layers_eq_of_nbhdF (e₁ e₂ : List (String × List String))
    (hn : ∀ v, nbhdF e₁ v = nbhdF e₂ v) (s : String) :
    ∀ n, layers e₁ s n = layers e₂ s n := by
  intro n
  induction n with
  | zero => rfl
  | succ m ih =>
    have hf : frontNext e₁ (layers e₁ s m).1 (layers e₁ s m).2 =
        frontNext e₂ (layers e₂ s m).1 (layers e₂ s m).2 := by
      rw [frontNext, frontNext, ih]
      congr 1
      apply Finset.biUnion_congr rfl
      intro a _
      exact hn a
    rw [layers_succ, layers_succ, hf, ih]

theorem bfsFrom_eq_of_perm (e₁ e₂ : List (String × List String))
    (h : List.Forall₂ (fun p q => p.1 = q.1 ∧ p.2.Perm q.2) e₁ e₂)
    (s : String) :
    (bfsFrom e₁ s).1.length = (bfsFrom e₂ s).1.length ∧
    (bfsFrom e₁ s).2 = (bfsFrom e₂ s).2 := by
  have hn := nbhdF_eq_of_perm e₁ e₂ h
  have hl := layers_eq_of_nbhdF e₁ e₂ hn s
  have hstab₁ : (layers e₁ s (max (stabN e₁) (stabN e₂))).1 = ∅ := by
    obtain ⟨k, hk⟩ :=
      Nat.exists_eq_add_of_le (Nat.le_max_left (stabN e₁) (stabN e₂))
    rw [hk]
    exact (stab_forward e₁ s (stabN e₁) (layers_stab e₁ s) k).1
  have hstab₂ : (layers e₂ s (max (stabN e₁) (stabN e₂))).1 = ∅ := by
    rw [← hl]
    exact hstab₁
  obtain ⟨hfin₁, hnd₁, hsum₁⟩ :=
    bfsFrom_spec e₁ s (max (stabN e₁) (stabN e₂)) hstab₁
  obtain ⟨hfin₂, hnd₂, hsum₂⟩ :=
    bfsFrom_spec e₂ s (max (stabN e₁) (stabN e₂)) hstab₂
  constructor
  · rw [← List.toFinset_card_of_nodup hnd₁, ← List.toFinset_card_of_nodup hnd₂,
      hfin₁, hfin₂, hl]
  · rw [hsum₁, hsum₂, tailSum, tailSum]
    apply Finset.sum_congr rfl
    intro k _
    rw [hl]

theorem cc_eq_of_perm (g₁ g₂ : TransitGraph) (hnodes : g₁.nodes = g₂.nodes)
    (hedges : List.Forall₂ (fun p q => p.1 = q.1 ∧ p.2.Perm q.2)
      g₁.edges g₂.edges) :
    compute_closeness_centrality g₁ = compute_closeness_centrality g₂ := by
  rw [compute_closeness_centrality, compute_closeness_centrality, hnodes]
  apply List.foldl_ext
  intro acc node _
  have hb := bfsFrom_eq_of_perm g₁.edges g₂.edges hedges node
  rw [centStep, centStep, hb.2]
  by_cases hp : 0 < (bfsFrom g₂.edges node).2
  · rw [if_pos hp, if_pos hp]
    have hcs : closenessScore g₁.edges node = closenessScore g₂.edges node := by
      rw [closenessScore, closenessScore, hb.1, hb.2]
    rw [hcs]
  · rw [if_neg hp, if_neg hp]

/-- C8: computing the centrality twice on the same graph gives identical
results, and permuting the entries inside adjacency lists leaves the
whole centrality mapping unchanged. -/
theorem c8_determinism :
    (∀ g : TransitGraph,
      compute_closeness_centrality g = compute_closeness_centrality g) ∧
    (∀ g₁ g₂ : TransitGraph, g₁.nodes = g₂.nodes →
      List.Forall₂ (fun p q => p.1 = q.1 ∧ p.2.Perm q.2) g₁.edges g₂.edges →
      compute_closeness_centrality g₁ = compute_closeness_centrality g₂) :=
  ⟨fun _ => rfl, cc_eq_of_perm⟩

/-- Fourth stop, for the diamond-shaped example. -/
def stopD : Stop := ⟨"D", "Stop D", 0, 0⟩

/-- Diamond graph `A→{B,C}`, `B→D`, `C→D`. -/
def diamondGraph : TransitGraph :=
  { nodes := [("A", stopA), ("B", stopB), ("C", stopC), ("D", stopD)]
    edges := [("A", ["B", "C"]), ("B", ["D"]), ("C", ["D"])] }

/-- The diamond graph with the adjacency list of `A` reversed. -/
def diamondGraphPerm : TransitGraph :=
  { nodes := [("A", stopA), ("B", stopB), ("C", stopC), ("D", stopD)]
    edges := [("A", ["C", "B"]), ("B", ["D"]), ("C", ["D"])] }

/-- C8 witness: reversing the adjacency list of `A` in the diamond graph
leaves the centrality mapping unchanged. -/
theorem c8_witness :
    (diamondGraph.nodes = diamondGraphPerm.nodes ∧
     List.Forall₂ (fun p q => p.1 = q.1 ∧ p.2.Perm q.2)
       diamondGraph.edges diamondGraphPerm.edges) ∧
    compute_closeness_centrality diamondGraph =
      compute_closeness_centrality diamondGraphPerm :=
  ⟨⟨rfl, by decide⟩,
   c8_determinism.2 diamondGraph diamondGraphPerm rfl (by decide)⟩
